import Mathlib

/-!
# Verification of the conserve merge / plan engine

This file gives a shallow embedding, in Lean 4, of the core of the
`conserve` configuration synchronizer:

* `src/conserve/config.py` — the deep-merge engine (`merge_deep`, the
  `conserve_merger` strategy table built on the `deepmerge` library),
  `ConfigHandle.merge`, `ConfigHandle.delete` and `ConfigHandle.save`;
* `src/conserve/plan.py` — the `Plan` staging transaction (`stage`,
  `get_diff_summary`, `preview`, `rollback`, `clear`).

Documents are modelled by the JSON-like `Value` type; Python `dict`s are
modelled by insertion-ordered association lists (`List (String × α)`).
A Python dict never has duplicate keys; the well-formedness predicate
`wfValue` records this where a theorem needs it.

For the claims about in-place mutation and aliasing, a second model is
used: an explicit heap of addressed nodes (`HNode`, `Heap`), with the
merge algorithm written as a state transformer over the heap, exactly
mirroring the mutation pattern of the Python code.
-/

set_option autoImplicit false

namespace Conserve

/-! ## Association-list model of Python dicts

Python dicts are insertion ordered: assigning to an existing key keeps its
position, assigning a fresh key appends it.  `dlookup` is `d.get(k)`,
`dhas` is `k in d`, `dput` is `d[k] = v`, `ddrop` is `del d[k]` (Python
dicts have unique keys, so updating or dropping every occurrence agrees
with Python on every list that models a dict). -/

def dlookup {κ α : Type} [DecidableEq κ] : List (κ × α) → κ → Option α
  | [], _ => none
  | (k, v) :: rest, q => if k = q then some v else dlookup rest q

def dhas {κ α : Type} [DecidableEq κ] (m : List (κ × α)) (k : κ) : Bool :=
  (dlookup m k).isSome

def dset {κ α : Type} [DecidableEq κ] : List (κ × α) → κ → α → List (κ × α)
  | [], _, _ => []
  | (k', v') :: rest, k, v => if k' = k then (k', v) :: rest else (k', v') :: dset rest k v

def dput {κ α : Type} [DecidableEq κ] (m : List (κ × α)) (k : κ) (v : α) : List (κ × α) :=
  if dhas m k then dset m k v else m ++ [(k, v)]

def ddrop {κ α : Type} [DecidableEq κ] (m : List (κ × α)) (k : κ) : List (κ × α) :=
  m.filter (fun p => p.1 ≠ k)

/-! ## The document value model

`Value` is the format-agnostic nested structure of maps, sequences and
scalars that `merge_deep` and `ConfigHandle` operate on (plain Python
objects; format-preserving container types are out of scope of the
claims treated here). -/

inductive Value where
  | vStr : String → Value
  | vInt : Int → Value
  | vBool : Bool → Value
  | vNull : Value
  | vList : List Value → Value
  | vMap : List (String × Value) → Value
deriving Repr

/-! ## The deep-merge engine

`conserve_merger` (config.py lines 41–53) is a `deepmerge.Merger` with
strategy table: both values dicts → recursive key-by-key merge, both
lists → replace entirely (`["override"]`), scalar fallback → replace,
type conflict → replace.  The dict strategy is `deepmerge`'s `"merge"`:
`for k, v in nxt.items(): base[k] = v if k not in base else
value_strategy(base[k], v)` — existing keys keep their position in
`base`, fresh keys of `nxt` are appended in `nxt` order.

`mergeValue` is that merger as a pure function; `mergeUpdate b n`
rewrites the entries of `b` (recursively merging values whose key also
occurs in `n`), and `dnew b n` is the list of entries of `n` whose key
is absent from `b`. -/

def dnew (b n : List (String × Value)) : List (String × Value) :=
  n.filter (fun p => !(dhas b p.1))

mutual
def mergeValue : Value → Value → Value
  | Value.vMap b, Value.vMap n => Value.vMap (mergeUpdate b n ++ dnew b n)
  | _, n => n

def mergeUpdate : List (String × Value) → List (String × Value) → List (String × Value)
  | [], _ => []
  | (k, v) :: rest, n =>
    match dlookup n k with
    | some w => (k, mergeValue v w) :: mergeUpdate rest n
    | none => (k, v) :: mergeUpdate rest n
end

def mergeList (acc : Value) : List Value → Value
  | [] => acc
  | d :: rest => mergeList (mergeValue acc d) rest

/-- `merge_deep(*docs)` (config.py lines 56–70): no documents yield an
empty mapping, otherwise the accumulator starts at `docs[0]` and the
remaining documents are merged in one after the other. -/
def merge_deep (docs : List Value) : Value :=
  match docs with
  | [] => Value.vMap []
  | d :: rest => mergeList d rest

/-- Is the value a mapping (a Python `dict`)? -/
def isMap : Value → Bool
  | Value.vMap _ => true
  | _ => false

/-- Key lookup inside a mapping value (`none` on non-mappings). -/
def vlookup (v : Value) (q : String) : Option Value :=
  match v with
  | Value.vMap m => dlookup m q
  | _ => none

mutual
/-- Well-formedness: every mapping reachable through map entries has
pairwise-distinct keys, as Python dicts do. -/
def wfValue : Value → Bool
  | Value.vMap m => wfEntries m
  | _ => true

def wfEntries : List (String × Value) → Bool
  | [] => true
  | (k, v) :: rest => wfValue v && !(dhas rest k) && wfEntries rest
end

/-! ## `ConfigHandle.delete` (config.py lines 135–154)

For each dot-separated path the code walks `parts[:-1]` from the
document root, following only dict entries, and breaks out (a silent
no-op for that path) as soon as a segment is missing or the current
object is not a dict; when the walk completes and the final key exists
in the reached dict, that key is deleted in place. -/

/-- Python's `path.split(".")`: split on every dot, keeping empty
segments; the result is never the empty list. -/
def splitDotAux : List Char → List Char → List String
  | [], acc => [String.mk acc.reverse]
  | c :: cs, acc => if c = '.' then String.mk acc.reverse :: splitDotAux cs [] else splitDotAux cs (c :: acc)

def splitDot (s : String) : List String :=
  splitDotAux s.data []

/-- Resolution of a dotted path: follow map entries segment by segment;
`none` as soon as a segment is missing or the current value is not a
mapping. -/
def navigate : Value → List String → Option Value
  | v, [] => some v
  | Value.vMap m, k :: rest =>
    match dlookup m k with
    | some w => navigate w rest
    | none => none
  | _, _ :: _ => none

/-- One path of `ConfigHandle.delete`: walk the leading segments
through dict entries (silently stopping on a missing segment or a
non-dict), then remove the final key if the reached object is a dict
containing it. -/
def deleteParts : Value → List String → Value
  | doc, [] => doc
  | doc, [k] =>
    match doc with
    | Value.vMap m => Value.vMap (ddrop m k)
    | _ => doc
  | doc, k :: k' :: rest =>
    match doc with
    | Value.vMap m =>
      match dlookup m k with
      | some v => Value.vMap (dset m k (deleteParts v (k' :: rest)))
      | none => doc
    | _ => doc

/-- `ConfigHandle.delete(*paths)`: apply the one-path deletion to each
dot-separated path in order. -/
def deletePaths (doc : Value) (paths : List String) : Value :=
  paths.foldl (fun d p => deleteParts d (splitDot p)) doc

/-! ## `ConfigHandle.merge` (config.py lines 118–133)

The strategy dispatch: `"deep"` runs `conserve_merger.merge`,
`"shallow"` runs `self.document.update(patch)` on dict documents (full
replacement otherwise), `"override"` replaces the document with the
patch, and anything else raises
`ValueError(f"Unknown merge strategy: {strategy}")` before any
assignment to `self.document`.  Python exceptions are modelled as an
`Except` error carrying the exception class name and its message; the
patch argument is annotated `dict` in the source and is modelled by its
entry list. -/

def handleMerge (doc : Value) (patch : List (String × Value)) (strategy : String) :
    Except (String × String) Value :=
  if strategy = "deep" then Except.ok (mergeValue doc (Value.vMap patch))
  else if strategy = "shallow" then
    Except.ok (match doc with
      | Value.vMap m => Value.vMap (patch.foldl (fun acc p => dput acc p.1 p.2) m)
      | _ => Value.vMap patch)
  else if strategy = "override" then Except.ok (Value.vMap patch)
  else Except.error ("ValueError", "Unknown merge strategy: " ++ strategy)

/-- The in-memory document after a `merge` call: on an exception the
assignment to `self.document` never happens, so the document is the one
from before the call. -/
def mergeDocAfter (doc : Value) (patch : List (String × Value)) (strategy : String) : Value :=
  match handleMerge doc patch strategy with
  | Except.ok d => d
  | Except.error _ => doc

/-! ## `ConfigHandle.save` (config.py lines 156–189)

`save(path=None, stage=None)`: when `stage` is left unspecified it
resolves to `path is None`; the target is
`Path(path) if path else self.file.path` — note Python *truthiness*:
the empty string is falsy, so `save("")` targets the original path.
Staging hands the serialized content to the Plan; a direct write
creates parent directories and writes the content to the target.  The
two possible effects are modelled by `SaveEffect`. -/

inductive SaveEffect where
  | staged : String → String → SaveEffect
  | wrote : String → String → SaveEffect
deriving Repr, DecidableEq

def save (origPath : String) (content : String) (path : Option String) (stage : Option Bool) :
    SaveEffect :=
  let stageB := stage.getD path.isNone
  let target :=
    match path with
    | some p => if p = "" then origPath else p
    | none => origPath
  if stageB then SaveEffect.staged target content else SaveEffect.wrote target content

/-! ## `Plan` (plan.py)

The Plan keeps two Python dicts: `_staging_map : real path → memory
file` (a fresh in-memory file per `stage` call, so only its content
matters) and `_original_contents : real path → str | None` (the on-disk
content observed at the first staging of the path, `None` when the file
did not exist).  Real storage is a partial map `String → Option String`
passed in explicitly; `stage` reads it and never writes it. -/

structure PlanState where
  staged : List (String × String)
  original : List (String × Option String)
deriving Repr, DecidableEq

def emptyPlan : PlanState := ⟨[], []⟩

/-- `Plan.stage(real_path, content)` (plan.py lines 18–33): record the
original on-disk content only on the first staging of the path, then
overwrite the staged content for the path. -/
def stage (fs : String → Option String) (st : PlanState) (p : String) (content : String) :
    PlanState :=
  { original := if dhas st.original p then st.original else st.original ++ [(p, fs p)],
    staged := dput st.staged p content }

/-- `Plan.preview()`: the staged content per path, unfiltered. -/
def preview (st : PlanState) : List (String × String) :=
  st.staged

/-- `Plan.rollback()`: discard both maps, touching no real storage. -/
def rollback (_ : PlanState) : PlanState := emptyPlan

/-- `Plan.clear()`: identical to `rollback`. -/
def clear (_ : PlanState) : PlanState := emptyPlan

/-- Model of the `difflib.unified_diff` text built in
`get_diff_summary`: `difflib` yields no lines at all when the two line
sequences are equal (and splitting with kept line ends is injective, so
that is string equality), otherwise a block headed by the `fromfile`
and `tofile` labels — both `str(real_path)` here; the hunk body is
abstracted as the raw old/new text. -/
def udiff (a b label : String) : String :=
  if a = b then ""
  else "--- " ++ label ++ "\n+++ " ++ label ++ "\n-" ++ a ++ "\n+" ++ b ++ "\n"

/-- `self._original_contents.get(real_path, "")`: the stored entry
(which may be the `None` sentinel) or the default `""`. -/
def getOrig (orig : List (String × Option String)) (p : String) : Option String :=
  match dlookup orig p with
  | some v => v
  | none => some ""

/-- `Plan.get_diff_summary()` (plan.py lines 35–49): for each staged
path in insertion order, compare the latest staged content against the
recorded original — Python's `original != modified` compares the raw
`str | None` value, so the `None` sentinel differs from every string —
and emit a diff block for the unequal ones, coercing the sentinel to
`""` only inside the diff text (`original or ""`); join the blocks with
newlines. -/
def get_diff_summary (st : PlanState) : String :=
  String.intercalate "\n" (st.staged.filterMap (fun pc =>
    let o := getOrig st.original pc.1
    if o ≠ some pc.2 then some (udiff (o.getD "") pc.2 pc.1) else none))

/-- The summary as the claim's words describe it: the changed-path
decision itself treats the missing-file sentinel as the empty string,
so a path that did not exist on disk whose latest staged content is
empty contributes nothing. -/
def claimed_diff_summary (st : PlanState) : String :=
  String.intercalate "\n" (st.staged.filterMap (fun pc =>
    let o := (getOrig st.original pc.1).getD ""
    if o ≠ pc.2 then some (udiff o pc.2 pc.1) else none))

/-! ### The staging invariants (C7)

Each `stage` call observes the real storage as it is at that moment;
a call is therefore modelled as the observed storage together with the
path and content passed in. -/

structure StageOp where
  fs : String → Option String
  path : String
  content : String

def foldStages (ops : List StageOp) (st : PlanState) : PlanState :=
  ops.foldl (fun s op => stage op.fs s op.path op.content) st

/-- A whole transaction: the stage calls applied to the empty Plan. -/
def runStages (ops : List StageOp) : PlanState :=
  foldStages ops emptyPlan

/-- The original content captured by the *first* stage call for `p`. -/
def firstOrig : List StageOp → String → Option (Option String)
  | [], _ => none
  | op :: rest, p => if op.path = p then some (op.fs p) else firstOrig rest p

/-- The content passed by the *last* stage call for `p`. -/
def lastStaged : List StageOp → String → Option String
  | [], _ => none
  | op :: rest, p =>
    match lastStaged rest p with
    | some c => some c
    | none => if op.path = p then some op.content else none

/-! ### Frame property of staging and rollback (C8) -/

/-- The Plan together with real storage; `stage` reads storage (for the
original snapshot) and never writes it. -/
structure World where
  plan : PlanState
  fs : String → Option String

def stageW (w : World) (p c : String) : World :=
  { plan := stage w.fs w.plan p c, fs := w.fs }

def rollbackW (w : World) : World :=
  { plan := rollback w.plan, fs := w.fs }

def clearW (w : World) : World :=
  { plan := clear w.plan, fs := w.fs }

def runStageOps (w : World) (ops : List (String × String)) : World :=
  ops.foldl (fun w pc => stageW w pc.1 pc.2) w

/-! ## In-place mutation: the heap model (C10)

`merge_deep` hands its first document to `deepmerge`, whose dict
strategy mutates `base` in place (`base[k] = ...`) and returns `base`;
values of `nxt` are stored by *reference*.  To reason about object
identity and aliasing, documents are modelled as addresses into an
explicit heap of nodes; `mergeH` is `Merger.merge` as a heap
transformer, `mergeEntriesH` is the dict strategy's loop over the
patch entries (re-reading `base`'s node before every store, as the
live Python dict would).  A fuel argument makes the recursion
structural; exhausted fuel yields `none`, and every theorem is
conditioned on a successful run. -/

inductive HNode where
  | hScalar : Int → HNode
  | hList : List Nat → HNode
  | hDict : List (String × Nat) → HNode
deriving Repr, DecidableEq

abbrev Heap := List (Nat × HNode)

mutual
def mergeH : Nat → Heap → Nat → Nat → Option (Heap × Nat)
  | 0, _, _, _ => none
  | fuel + 1, h, base, nxt =>
    match dlookup h base, dlookup h nxt with
    | some (HNode.hDict _), some (HNode.hDict nm) =>
      match mergeEntriesH fuel h base nm with
      | some h' => some (h', base)
      | none => none
    | some _, some _ => some (h, nxt)
    | _, _ => none

def mergeEntriesH : Nat → Heap → Nat → List (String × Nat) → Option Heap
  | 0, _, _, _ => none
  | _ + 1, h, _, [] => some h
  | fuel + 1, h, base, (k, va) :: rest =>
    match dlookup h base with
    | some (HNode.hDict bm) =>
      match dlookup bm k with
      | none =>
        mergeEntriesH fuel (dset h base (HNode.hDict (bm ++ [(k, va)]))) base rest
      | some ba =>
        match mergeH fuel h ba va with
        | some (h', r) =>
          match dlookup h' base with
          | some (HNode.hDict bm') =>
            mergeEntriesH fuel (dset h' base (HNode.hDict (dput bm' k r))) base rest
          | _ => none
        | none => none
    | _ => none
end

/-- `merge_deep(*docs)` over the heap: the accumulator starts at the
first document's address and the remaining documents are merged in. -/
def mergeDocsH (fuel : Nat) (h : Heap) (d : Nat) : List Nat → Option (Heap × Nat)
  | [] => some (h, d)
  | b :: bs =>
    match mergeH fuel h d b with
    | some (h', r) => mergeDocsH fuel h' r bs
    | none => none

/-! ## Theorems -/

@[simp]
theorem dlookup_nil {κ α : Type} [DecidableEq κ] (q : κ) : dlookup ([] : List (κ × α)) q = none := rfl

@[simp]
theorem dlookup_cons {κ α : Type} [DecidableEq κ] (k : κ) (v : α) (rest : List (κ × α)) (q : κ) :
    dlookup ((k, v) :: rest) q = if k = q then some v else dlookup rest q := rfl

theorem dlookup_append {κ α : Type} [DecidableEq κ] (l₁ l₂ : List (κ × α)) (q : κ) :
    dlookup (l₁ ++ l₂) q = (dlookup l₁ q).orElse (fun _ => dlookup l₂ q) := by
  induction l₁ with
  | nil => simp
  | cons p rest ih =>
    obtain ⟨k, v⟩ := p
    by_cases h : k = q <;> simp [h, ih]

theorem dlookup_dset {κ α : Type} [DecidableEq κ] (m : List (κ × α)) (k : κ) (v : α) (q : κ) :
    dlookup (dset m k v) q = if k = q then (dlookup m q).map (fun _ => v) else dlookup m q := by
  induction m with
  | nil => by_cases h : k = q <;> simp [dset, h]
  | cons p rest ih =>
    obtain ⟨k', v'⟩ := p
    by_cases hk : k' = k
    · subst hk
      by_cases hq : k' = q
      · subst hq; simp [dset]
      · simp [dset, hq]
    · by_cases hq : k' = q
      · subst hq
        have hkq : ¬ k = k' := fun h => hk h.symm
        simp [dset, hk, hkq]
      · simp [dset, hk, hq, ih]

theorem dlookup_dput {κ α : Type} [DecidableEq κ] (m : List (κ × α)) (k : κ) (v : α) (q : κ) :
    dlookup (dput m k v) q = if k = q then some v else dlookup m q := by
  by_cases h : dhas m k
  · rw [dput, if_pos h, dlookup_dset]
    by_cases hq : k = q
    · subst hq
      obtain ⟨w, hw⟩ := Option.isSome_iff_exists.mp h
      simp [hw]
    · simp [hq]
  · rw [dput, if_neg h, dlookup_append]
    by_cases hq : k = q
    · subst hq
      have : dlookup m k = none := by
        by_contra hc
        exact h (Option.isSome_iff_ne_none.mpr hc)
      simp [this]
    · by_cases hm : (dlookup m q).isSome
      · obtain ⟨w, hw⟩ := Option.isSome_iff_exists.mp hm
        simp [hw, hq]
      · have : dlookup m q = none := Option.not_isSome_iff_eq_none.mp hm
        simp [this, hq]

theorem dlookup_ddrop {κ α : Type} [DecidableEq κ] (m : List (κ × α)) (k : κ) (q : κ) :
    dlookup (ddrop m k) q = if k = q then none else dlookup m q := by
  induction m with
  | nil => simp [ddrop]
  | cons p rest ih =>
    obtain ⟨k', v'⟩ := p
    by_cases hk : k' = k
    · subst hk
      by_cases hq : k' = q
      · subst hq; simp [ddrop] at ih ⊢; simpa using ih
      · simp [ddrop, hq] at ih ⊢
        simpa [hq] using ih
    · by_cases hq : k' = q
      · subst hq
        have : ¬ k = k' := fun h => hk h.symm
        simp [ddrop, hk, this]
      · simp [ddrop, hk, hq] at ih ⊢
        exact ih

theorem mergeValue_vMap (b n : List (String × Value)) :
    mergeValue (Value.vMap b) (Value.vMap n) = Value.vMap (mergeUpdate b n ++ dnew b n) := rfl

theorem mergeValue_not_map_left (x y : Value) (h : isMap x = false) : mergeValue x y = y := by
  cases x <;> cases y <;> first | rfl | simp [isMap] at h

theorem mergeValue_not_map_right (x y : Value) (h : isMap y = false) : mergeValue x y = y := by
  cases x <;> cases y <;> first | rfl | simp [isMap] at h

theorem dlookup_mergeUpdate (b n : List (String × Value)) (q : String) :
    dlookup (mergeUpdate b n) q =
      (dlookup b q).map (fun v =>
        match dlookup n q with
        | some w => mergeValue v w
        | none => v) := by
  induction b with
  | nil => simp [mergeUpdate]
  | cons p rest ih =>
    obtain ⟨k, v⟩ := p
    by_cases hq : k = q
    · subst hq
      cases hn : dlookup n k <;> simp [mergeUpdate, hn]
    · cases hn : dlookup n k <;> simp [mergeUpdate, hn, hq, ih]

theorem dnew_cons (b : List (String × Value)) (k : String) (w : Value) (rest : List (String × Value)) :
    dnew b ((k, w) :: rest) = if dhas b k then dnew b rest else (k, w) :: dnew b rest := by
  by_cases hb : dhas b k <;> simp [dnew, List.filter_cons, hb]

theorem dlookup_dnew (b n : List (String × Value)) (q : String) :
    dlookup (dnew b n) q = if dhas b q then none else dlookup n q := by
  induction n with
  | nil => simp [dnew]
  | cons p rest ih =>
    obtain ⟨k, w⟩ := p
    by_cases hb : dhas b k
    · by_cases hq : k = q
      · subst hq; simp [dnew_cons, hb, ih]
      · simp [dnew_cons, hb, hq, ih]
    · by_cases hq : k = q
      · subst hq; simp [dnew_cons, hb, ih]
      · simp [dnew_cons, hb, hq, ih]

theorem vlookup_mergeValue_vMap (b n : List (String × Value)) (q : String) :
    vlookup (mergeValue (Value.vMap b) (Value.vMap n)) q =
      match dlookup b q, dlookup n q with
      | some v, some w => some (mergeValue v w)
      | some v, none => some v
      | none, r => r := by
  rw [mergeValue_vMap]
  show dlookup (mergeUpdate b n ++ dnew b n) q = _
  rw [dlookup_append, dlookup_mergeUpdate, dlookup_dnew]
  cases hb : dlookup b q with
  | none =>
    have : dhas b q = false := by simp [dhas, hb]
    cases hn : dlookup n q <;> simp [this, Option.orElse]
  | some v =>
    have : dhas b q = true := by simp [dhas, hb]
    cases hn : dlookup n q <;> simp [this, Option.orElse]

theorem mergeList_eq_foldl (rest : List Value) : ∀ acc : Value,
    mergeList acc rest = rest.foldl mergeValue acc := by
  induction rest with
  | nil => intro acc; rfl
  | cons d ds ih => intro acc; simp [mergeList, List.foldl, ih]

/-- C3: `merge_deep` of zero documents is the empty mapping, and of
`n ≥ 1` documents is the left-to-right fold of the binary deep merge
over the list, starting from the first document (Python
`reduce(docs, deep-merge)`). -/
theorem merge_deep_spec :
    merge_deep [] = Value.vMap [] ∧
    ∀ (d : Value) (rest : List Value), merge_deep (d :: rest) = rest.foldl mergeValue d := by
  refine ⟨rfl, fun d rest => ?_⟩
  simp [merge_deep, mergeList_eq_foldl]

/-- C4: the binary deep merge of two plain mappings proceeds key by key
(keys present in both sides are merged recursively, keys of only one
side are kept as is); on any pair that is not two mappings the patch
value replaces the base value entirely — in particular sequences are
fully replaced and scalars are replaced.  The two concrete examples of
the spec evaluate as stated. -/
theorem mergeValue_keywise_and_replace :
    (∀ (b n : List (String × Value)) (q : String),
      vlookup (mergeValue (Value.vMap b) (Value.vMap n)) q =
        match dlookup b q, dlookup n q with
        | some v, some w => some (mergeValue v w)
        | some v, none => some v
        | none, r => r) ∧
    (∀ x y : Value, isMap x = false → mergeValue x y = y) ∧
    (∀ x y : Value, isMap y = false → mergeValue x y = y) ∧
    merge_deep [Value.vMap [("a", Value.vInt 1), ("b", Value.vList [Value.vInt 1, Value.vInt 2, Value.vInt 3])],
                Value.vMap [("a", Value.vInt 2), ("b", Value.vList [Value.vInt 9])]] =
      Value.vMap [("a", Value.vInt 2), ("b", Value.vList [Value.vInt 9])] ∧
    merge_deep [Value.vMap [("server", Value.vMap [("host", Value.vStr "h"), ("port", Value.vInt 1)])],
                Value.vMap [("server", Value.vMap [("port", Value.vInt 2)])]] =
      Value.vMap [("server", Value.vMap [("host", Value.vStr "h"), ("port", Value.vInt 2)])] :=
  ⟨vlookup_mergeValue_vMap, mergeValue_not_map_left, mergeValue_not_map_right, rfl, rfl⟩

/-- Witness for `mergeValue_keywise_and_replace`: the hypotheses of the
replacement conjuncts are discharged on concrete scalar and list
values. -/
theorem mergeValue_keywise_and_replace_witness :
    mergeValue (Value.vInt 1) (Value.vInt 2) = Value.vInt 2 ∧
    mergeValue (Value.vList [Value.vInt 1]) (Value.vList [Value.vInt 9]) = Value.vList [Value.vInt 9] :=
  ⟨mergeValue_keywise_and_replace.2.1 (Value.vInt 1) (Value.vInt 2) rfl,
   mergeValue_keywise_and_replace.2.2.1 (Value.vList [Value.vInt 1]) (Value.vList [Value.vInt 9]) rfl⟩

/-! ### Idempotence of the deep merge in its patch -/

theorem dhas_append {κ α : Type} [DecidableEq κ] (x y : List (κ × α)) (k : κ) :
    dhas (x ++ y) k = (dhas x k || dhas y k) := by
  rw [dhas, dlookup_append]
  cases h : dlookup x k <;> simp [dhas, h, Option.orElse]

theorem dhas_mergeUpdate (b n : List (String × Value)) (k : String) :
    dhas (mergeUpdate b n) k = dhas b k := by
  rw [dhas, dlookup_mergeUpdate]
  cases h : dlookup b k <;> simp [dhas, h]

theorem dhas_dnew (b n : List (String × Value)) (k : String) :
    dhas (dnew b n) k = (!dhas b k && dhas n k) := by
  cases h : dlookup b k <;> simp [dhas, dlookup_dnew, h]

theorem dhas_of_mem {κ α : Type} [DecidableEq κ] {l : List (κ × α)} {k : κ} {v : α}
    (h : (k, v) ∈ l) : dhas l k = true := by
  induction l with
  | nil => simp at h
  | cons p rest ih =>
    obtain ⟨k', v'⟩ := p
    rcases List.mem_cons.mp h with h1 | h2
    · injection h1 with hk hv
      subst hk
      simp [dhas]
    · by_cases hk : k' = k
      · simp [dhas, hk]
      · simpa [dhas, hk] using ih h2

theorem sizeOf_dlookup {n : List (String × Value)} {q : String} {w : Value}
    (h : dlookup n q = some w) : sizeOf w < sizeOf n := by
  induction n with
  | nil => simp at h
  | cons p rest ih =>
    obtain ⟨k, v⟩ := p
    by_cases hk : k = q
    · simp [hk] at h
      subst h
      simp only [List.cons.sizeOf_spec, Prod.mk.sizeOf_spec]
      omega
    · simp [hk] at h
      have := ih h
      simp only [List.cons.sizeOf_spec, Prod.mk.sizeOf_spec]
      omega

theorem sizeOf_mem {n : List (String × Value)} {p : String × Value}
    (h : p ∈ n) : sizeOf p.2 < sizeOf n := by
  induction n with
  | nil => simp at h
  | cons q rest ih =>
    rcases List.mem_cons.mp h with h1 | h2
    · subst h1
      obtain ⟨k, v⟩ := p
      simp only [List.cons.sizeOf_spec, Prod.mk.sizeOf_spec]
      omega
    · have := ih h2
      simp only [List.cons.sizeOf_spec]
      omega

theorem wfEntries_of_wfValue_vMap {m : List (String × Value)}
    (h : wfValue (Value.vMap m) = true) : wfEntries m = true := h

theorem wf_dlookup {n : List (String × Value)} {q : String} {w : Value}
    (hwf : wfEntries n = true) (h : dlookup n q = some w) : wfValue w = true := by
  induction n with
  | nil => simp at h
  | cons p rest ih =>
    obtain ⟨k, v⟩ := p
    rw [wfEntries] at hwf
    simp only [Bool.and_eq_true] at hwf
    by_cases hk : k = q
    · simp [hk] at h
      exact h ▸ hwf.1.1
    · simp [hk] at h
      exact ih hwf.2 h

theorem dlookup_of_mem_wf {n : List (String × Value)} {k : String} {w : Value}
    (hwf : wfEntries n = true) (h : (k, w) ∈ n) : dlookup n k = some w := by
  induction n with
  | nil => simp at h
  | cons p rest ih =>
    obtain ⟨k', v'⟩ := p
    rw [wfEntries] at hwf
    simp only [Bool.and_eq_true] at hwf
    rcases List.mem_cons.mp h with h1 | h2
    · obtain ⟨hk, hv⟩ := Prod.mk.injEq .. ▸ h1
      simp [hk.symm, hv.symm]
    · have hk : k' ≠ k := by
        intro he
        subst he
        have := dhas_of_mem h2
        simp [this] at hwf
      simp [hk]
      exact ih hwf.2 h2

theorem mergeUpdate_append (x y n : List (String × Value)) :
    mergeUpdate (x ++ y) n = mergeUpdate x n ++ mergeUpdate y n := by
  induction x with
  | nil => rfl
  | cons p rest ih =>
    obtain ⟨k, v⟩ := p
    cases h : dlookup n k <;> simp [mergeUpdate, h, ih]

theorem mergeUpdate_eq_self_of (l n : List (String × Value))
    (h : ∀ p ∈ l, ∀ w, dlookup n p.1 = some w → mergeValue p.2 w = p.2) :
    mergeUpdate l n = l := by
  induction l with
  | nil => rfl
  | cons p rest ih =>
    obtain ⟨k, v⟩ := p
    have hrest := ih (fun p hp w hw => h p (List.mem_cons_of_mem _ hp) w hw)
    cases hl : dlookup n k with
    | none => simp [mergeUpdate, hl, hrest]
    | some w =>
      have := h (k, v) (List.mem_cons_self _ _) w hl
      simp [mergeUpdate, hl, hrest, this]

theorem exists_of_mem_mergeUpdate {b n : List (String × Value)} {p : String × Value}
    (h : p ∈ mergeUpdate b n) :
    ∃ v, (p.1, v) ∈ b ∧ p.2 = (match dlookup n p.1 with
      | some w => mergeValue v w
      | none => v) := by
  induction b with
  | nil => simp [mergeUpdate] at h
  | cons q rest ih =>
    obtain ⟨k, v⟩ := q
    cases hl : dlookup n k with
    | some w =>
      rw [mergeUpdate, hl] at h
      rcases List.mem_cons.mp h with h1 | h2
      · subst h1
        exact ⟨v, List.mem_cons_self _ _, by simp [hl]⟩
      · obtain ⟨v', hm, he⟩ := ih h2
        exact ⟨v', List.mem_cons_of_mem _ hm, he⟩
    | none =>
      rw [mergeUpdate, hl] at h
      rcases List.mem_cons.mp h with h1 | h2
      · subst h1
        exact ⟨v, List.mem_cons_self _ _, by simp [hl]⟩
      · obtain ⟨v', hm, he⟩ := ih h2
        exact ⟨v', List.mem_cons_of_mem _ hm, he⟩

theorem dnew_eq_nil_of (b n : List (String × Value))
    (h : ∀ p ∈ n, dhas b p.1 = true) :
    dnew b n = [] := by
  induction n with
  | nil => rfl
  | cons p rest ih =>
    obtain ⟨k, w⟩ := p
    rw [dnew_cons, if_pos (h (k, w) (List.mem_cons_self _ _))]
    exact ih (fun p hp => h p (List.mem_cons_of_mem _ hp))

theorem mergeValue_empty_left (n : Value) : mergeValue (Value.vMap []) n = n := by
  cases n with
  | vMap nm =>
    rw [mergeValue_vMap, mergeUpdate, List.nil_append]
    have : dnew ([] : List (String × Value)) nm = nm := by
      induction nm with
      | nil => rfl
      | cons p rest ih => rw [dnew_cons] at *; simp [dhas, ih]
    rw [this]
  | vStr s => rfl
  | vInt i => rfl
  | vBool b => rfl
  | vNull => rfl
  | vList l => rfl

theorem mergeValue_idem_of_wf :
    ∀ (n : Value), wfValue n = true → ∀ a, mergeValue (mergeValue a n) n = mergeValue a n := by
  have key : ∀ (fuel : Nat) (n : Value), sizeOf n < fuel → wfValue n = true →
      ∀ a, mergeValue (mergeValue a n) n = mergeValue a n := by
    intro fuel
    induction fuel with
    | zero => intro n hn; omega
    | succ fuel ih =>
      intro n hlt hwf a
      have m1 : ∀ w, sizeOf w < sizeOf n → wfValue w = true → mergeValue w w = w := by
        intro w hw hwfw
        have h2 := ih w (by omega) hwfw (Value.vMap [])
        rw [mergeValue_empty_left] at h2
        exact h2
      cases n with
      | vMap nm =>
        have hwfe : wfEntries nm = true := hwf
        have mapCase : ∀ am : List (String × Value),
            mergeValue (mergeValue (Value.vMap am) (Value.vMap nm)) (Value.vMap nm)
              = mergeValue (Value.vMap am) (Value.vMap nm) := by
          intro am
          rw [mergeValue_vMap am nm, mergeValue_vMap]
          have h1 : mergeUpdate (mergeUpdate am nm ++ dnew am nm) nm
              = mergeUpdate am nm ++ dnew am nm := by
            rw [mergeUpdate_append]
            have ha : mergeUpdate (mergeUpdate am nm) nm = mergeUpdate am nm := by
              apply mergeUpdate_eq_self_of
              intro p hp w hw
              obtain ⟨v, hmem, he⟩ := exists_of_mem_mergeUpdate hp
              rw [hw] at he
              have hsz : sizeOf w < sizeOf (Value.vMap nm) := by
                have := sizeOf_dlookup hw
                simp only [Value.vMap.sizeOf_spec]
                omega
              have hwfw : wfValue w = true := wf_dlookup hwfe hw
              have := ih w (by omega) hwfw v
              rw [he]
              exact this
            have hb : mergeUpdate (dnew am nm) nm = dnew am nm := by
              apply mergeUpdate_eq_self_of
              intro p hp w hw
              have hpn : p ∈ nm := List.mem_of_mem_filter hp
              have hl : dlookup nm p.1 = some p.2 := by
                obtain ⟨k, v⟩ := p
                exact dlookup_of_mem_wf hwfe hpn
              rw [hl] at hw
              obtain rfl : p.2 = w := by injection hw
              apply m1
              · have := sizeOf_mem hpn
                simp only [Value.vMap.sizeOf_spec] at hlt ⊢
                omega
              · exact wf_dlookup hwfe hl
            rw [ha, hb]
          have h2 : dnew (mergeUpdate am nm ++ dnew am nm) nm = [] := by
            apply dnew_eq_nil_of
            intro p hp
            rw [dhas_append, dhas_mergeUpdate, dhas_dnew]
            have := dhas_of_mem (l := nm) (k := p.1) (v := p.2) (by simpa using hp)
            by_cases hb : dhas am p.1 <;> simp [hb, this]
          rw [h1, h2, List.append_nil]
        have selfn : mergeValue (Value.vMap nm) (Value.vMap nm) = Value.vMap nm := by
          have := mapCase []
          rw [mergeValue_empty_left] at this
          exact this
        have nonMap : ∀ x : Value, isMap x = false →
            mergeValue (mergeValue x (Value.vMap nm)) (Value.vMap nm)
              = mergeValue x (Value.vMap nm) := by
          intro x hx
          rw [mergeValue_not_map_left x _ hx]
          exact selfn
        cases a with
        | vMap am => exact mapCase am
        | vStr s => exact nonMap _ rfl
        | vInt i => exact nonMap _ rfl
        | vBool b => exact nonMap _ rfl
        | vNull => exact nonMap _ rfl
        | vList l => exact nonMap _ rfl
      | vStr s =>
        rw [mergeValue_not_map_right a (Value.vStr s) rfl,
          mergeValue_not_map_right (Value.vStr s) (Value.vStr s) rfl]
      | vInt i =>
        rw [mergeValue_not_map_right a (Value.vInt i) rfl,
          mergeValue_not_map_right (Value.vInt i) (Value.vInt i) rfl]
      | vBool b =>
        rw [mergeValue_not_map_right a (Value.vBool b) rfl,
          mergeValue_not_map_right (Value.vBool b) (Value.vBool b) rfl]
      | vNull =>
        rw [mergeValue_not_map_right a Value.vNull rfl,
          mergeValue_not_map_right Value.vNull Value.vNull rfl]
      | vList l =>
        rw [mergeValue_not_map_right a (Value.vList l) rfl,
          mergeValue_not_map_right (Value.vList l) (Value.vList l) rfl]
  exact fun n hwf a => key (sizeOf n + 1) n (by omega) hwf a

/-- C9: the deep merge is idempotent in its patch — for plain mappings
`a` and `b` (Python dicts: no duplicate keys anywhere),
`merge_deep(merge_deep(a, b), b) = merge_deep(a, b)`. -/
theorem merge_deep_patch_idempotent (a b : Value)
    (_ha : wfValue a = true) (hb : wfValue b = true) :
    merge_deep [merge_deep [a, b], b] = merge_deep [a, b] := by
  simp only [merge_deep, mergeList]
  exact mergeValue_idem_of_wf b hb a

/-- Witness for `merge_deep_patch_idempotent` at concrete nested
documents. -/
theorem merge_deep_patch_idempotent_witness :
    merge_deep [merge_deep
        [Value.vMap [("s", Value.vMap [("h", Value.vStr "x"), ("p", Value.vInt 1)])],
         Value.vMap [("s", Value.vMap [("p", Value.vInt 2)]), ("t", Value.vList [Value.vInt 1])]],
      Value.vMap [("s", Value.vMap [("p", Value.vInt 2)]), ("t", Value.vList [Value.vInt 1])]]
    = merge_deep
        [Value.vMap [("s", Value.vMap [("h", Value.vStr "x"), ("p", Value.vInt 1)])],
         Value.vMap [("s", Value.vMap [("p", Value.vInt 2)]), ("t", Value.vList [Value.vInt 1])]] :=
  merge_deep_patch_idempotent _ _ rfl rfl

theorem splitDotAux_ne_nil : ∀ (cs : List Char) (acc : List Char), splitDotAux cs acc ≠ [] := by
  intro cs
  induction cs with
  | nil => intro acc; simp [splitDotAux]
  | cons c cs ih =>
    intro acc
    by_cases h : c = '.'
    · simp [splitDotAux, h]
    · simpa [splitDotAux, h] using ih (c :: acc)

theorem splitDot_ne_nil (s : String) : splitDot s ≠ [] :=
  splitDotAux_ne_nil _ _

theorem navigate_nil (v : Value) : navigate v [] = some v := by cases v <;> rfl

theorem navigate_vMap_cons (m : List (String × Value)) (k : String) (rest : List String) :
    navigate (Value.vMap m) (k :: rest) =
      match dlookup m k with
      | some w => navigate w rest
      | none => none := rfl

theorem navigate_not_map (v : Value) (k : String) (rest : List String)
    (h : isMap v = false) : navigate v (k :: rest) = none := by
  cases v <;> first | rfl | simp [isMap] at h

theorem deleteParts_nil (doc : Value) : deleteParts doc [] = doc := by cases doc <;> rfl

theorem deleteParts_vMap_single (m : List (String × Value)) (k : String) :
    deleteParts (Value.vMap m) [k] = Value.vMap (ddrop m k) := rfl

theorem deleteParts_vMap_cons2 (m : List (String × Value)) (k k' : String) (rest : List String) :
    deleteParts (Value.vMap m) (k :: k' :: rest) =
      match dlookup m k with
      | some v => Value.vMap (dset m k (deleteParts v (k' :: rest)))
      | none => Value.vMap m := rfl

theorem deleteParts_not_map (doc : Value) (parts : List String)
    (h : isMap doc = false) : deleteParts doc parts = doc := by
  cases parts with
  | nil => exact deleteParts_nil doc
  | cons k t =>
    cases t with
    | nil => cases doc <;> first | rfl | simp [isMap] at h
    | cons k' t' => cases doc <;> first | rfl | simp [isMap] at h

theorem ddrop_cons {κ α : Type} [DecidableEq κ] (k' : κ) (v' : α) (rest : List (κ × α)) (k : κ) :
    ddrop ((k', v') :: rest) k = if k' = k then ddrop rest k else (k', v') :: ddrop rest k := by
  by_cases hk : k' = k <;> simp [ddrop, List.filter_cons, hk]

theorem ddrop_eq_self_of {κ α : Type} [DecidableEq κ] {m : List (κ × α)} {k : κ}
    (h : dhas m k = false) : ddrop m k = m := by
  induction m with
  | nil => rfl
  | cons p rest ih =>
    obtain ⟨k', v'⟩ := p
    by_cases hk : k' = k
    · simp [dhas, hk] at h
    · have h' : dhas rest k = false := by simpa [dhas, hk] using h
      rw [ddrop_cons, if_neg hk, ih h']

theorem dset_eq_self_of {κ α : Type} [DecidableEq κ] {m : List (κ × α)} {k : κ} {v : α}
    (h : dlookup m k = some v) : dset m k v = m := by
  induction m with
  | nil => simp at h
  | cons p rest ih =>
    obtain ⟨k', v'⟩ := p
    by_cases hk : k' = k
    · subst hk
      simp at h
      simp [dset, h]
    · simp [hk] at h
      simp [dset, hk, ih h]

theorem deleteParts_noop : ∀ (parts : List String) (doc : Value),
    navigate doc parts = none → deleteParts doc parts = doc := by
  intro parts
  induction parts with
  | nil => intro doc h; rw [navigate_nil] at h; exact absurd h (by simp)
  | cons k t ih =>
    intro doc h
    cases doc with
    | vMap m =>
      cases t with
      | nil =>
        cases hl : dlookup m k with
        | some w => simp [navigate_vMap_cons, hl, navigate_nil] at h
        | none =>
          have hh : dhas m k = false := by simp [dhas, hl]
          rw [deleteParts_vMap_single, ddrop_eq_self_of hh]
      | cons k' t' =>
        cases hl : dlookup m k with
        | some v =>
          simp only [navigate_vMap_cons, hl] at h
          simp only [deleteParts_vMap_cons2, hl]
          rw [ih v h, dset_eq_self_of hl]
        | none =>
          simp only [deleteParts_vMap_cons2, hl]
    | vStr s => exact deleteParts_not_map _ _ rfl
    | vInt i => exact deleteParts_not_map _ _ rfl
    | vBool b => exact deleteParts_not_map _ _ rfl
    | vNull => exact deleteParts_not_map _ _ rfl
    | vList l => exact deleteParts_not_map _ _ rfl

theorem deleteParts_removes : ∀ (parts : List String) (doc : Value) (w : Value),
    parts ≠ [] → navigate doc parts = some w →
    navigate (deleteParts doc parts) parts = none := by
  intro parts
  induction parts with
  | nil => intro doc w hne; exact absurd rfl hne
  | cons k t ih =>
    intro doc w _ h
    cases doc with
    | vMap m =>
      cases hl : dlookup m k with
      | none => simp [navigate_vMap_cons, hl] at h
      | some v =>
        simp only [navigate_vMap_cons, hl] at h
        cases t with
        | nil =>
          rw [deleteParts_vMap_single]
          simp [navigate_vMap_cons, dlookup_ddrop]
        | cons k' t' =>
          have step : navigate (deleteParts v (k' :: t')) (k' :: t') = none :=
            ih v w (by simp) h
          simp only [deleteParts_vMap_cons2, hl]
          simp [navigate_vMap_cons, dlookup_dset, hl]
          exact step
    | vStr s => rw [navigate_not_map (Value.vStr s) k t rfl] at h; exact absurd h (by simp)
    | vInt i => rw [navigate_not_map (Value.vInt i) k t rfl] at h; exact absurd h (by simp)
    | vBool b => rw [navigate_not_map (Value.vBool b) k t rfl] at h; exact absurd h (by simp)
    | vNull => rw [navigate_not_map Value.vNull k t rfl] at h; exact absurd h (by simp)
    | vList l => rw [navigate_not_map (Value.vList l) k t rfl] at h; exact absurd h (by simp)

theorem deleteParts_frame : ∀ (parts : List String) (doc : Value) (q : List String),
    ¬ q <+: parts → ¬ parts <+: q →
    navigate (deleteParts doc parts) q = navigate doc q := by
  intro parts
  induction parts with
  | nil => intro doc q _ hq2; exact absurd List.nil_prefix hq2
  | cons k t ih =>
    intro doc q hq1 hq2
    cases doc with
    | vMap m =>
      cases q with
      | nil => exact absurd List.nil_prefix hq1
      | cons k₂ qr =>
        by_cases hk : k₂ = k
        · subst hk
          cases t with
          | nil =>
            cases qr with
            | nil => exact absurd (List.prefix_refl _) hq1
            | cons q1 qt => exact absurd (List.cons_prefix_cons.mpr ⟨rfl, List.nil_prefix⟩) hq2
          | cons k' t' =>
            have hq1' : ¬ qr <+: (k' :: t') := fun hp =>
              hq1 (List.cons_prefix_cons.mpr ⟨rfl, hp⟩)
            have hq2' : ¬ (k' :: t') <+: qr := fun hp =>
              hq2 (List.cons_prefix_cons.mpr ⟨rfl, hp⟩)
            cases hl : dlookup m k₂ with
            | none => simp only [deleteParts_vMap_cons2, hl]
            | some v =>
              simp only [deleteParts_vMap_cons2, hl]
              simp only [navigate_vMap_cons, dlookup_dset, if_pos rfl, hl, Option.map_some']
              exact ih v qr hq1' hq2'
        · cases t with
          | nil =>
            rw [deleteParts_vMap_single]
            simp only [navigate_vMap_cons, dlookup_ddrop,
              if_neg (fun he : k = k₂ => hk he.symm)]
          | cons k' t' =>
            cases hl : dlookup m k with
            | none => simp only [deleteParts_vMap_cons2, hl]
            | some v =>
              simp only [deleteParts_vMap_cons2, hl]
              simp only [navigate_vMap_cons, dlookup_dset,
                if_neg (fun he : k = k₂ => hk he.symm)]
    | vStr s => rw [deleteParts_not_map (Value.vStr s) (k :: t) rfl]
    | vInt i => rw [deleteParts_not_map (Value.vInt i) (k :: t) rfl]
    | vBool b => rw [deleteParts_not_map (Value.vBool b) (k :: t) rfl]
    | vNull => rw [deleteParts_not_map Value.vNull (k :: t) rfl]
    | vList l => rw [deleteParts_not_map (Value.vList l) (k :: t) rfl]

/-- C5: for every document and dot-separated path string, `delete`
never fails: if the path does not fully resolve (a missing segment, a
non-mapping intermediate value, or a missing final key) the document is
unchanged — and so deleting a lacking path twice produces no error and
no change both times; when the path does resolve, exactly the final key
is removed: afterwards the full path no longer resolves, while every
query path that diverges from the deleted one resolves exactly as
before. -/
theorem delete_noop_or_removes (doc : Value) (p : String) :
    (navigate doc (splitDot p) = none →
      deletePaths doc [p] = doc ∧ deletePaths (deletePaths doc [p]) [p] = doc) ∧
    (∀ w, navigate doc (splitDot p) = some w →
      navigate (deletePaths doc [p]) (splitDot p) = none) ∧
    (∀ q, ¬ q <+: splitDot p → ¬ splitDot p <+: q →
      navigate (deletePaths doc [p]) q = navigate doc q) := by
  have hd : ∀ d : Value, deletePaths d [p] = deleteParts d (splitDot p) := fun d => rfl
  refine ⟨fun h => ?_, fun w h => ?_, fun q hq1 hq2 => ?_⟩
  · have h1 : deletePaths doc [p] = doc := by rw [hd]; exact deleteParts_noop _ _ h
    exact ⟨h1, by rw [h1]; exact h1⟩
  · rw [hd]
    exact deleteParts_removes _ _ w (splitDot_ne_nil p) h
  · rw [hd]
    exact deleteParts_frame _ _ q hq1 hq2

/-- Witness for `delete_noop_or_removes`: deleting the lacking path
`"a.b.c"` (twice) from `{"x": 1}` changes nothing, and deleting the
resolving path `"s.p"` from `{"s": {"p": 1, "q": 2}}` makes `"s.p"`
unresolvable while `"s.q"` still resolves. -/
theorem delete_noop_or_removes_witness :
    (deletePaths (Value.vMap [("x", Value.vInt 1)]) ["a.b.c"] = Value.vMap [("x", Value.vInt 1)] ∧
      deletePaths (deletePaths (Value.vMap [("x", Value.vInt 1)]) ["a.b.c"]) ["a.b.c"]
        = Value.vMap [("x", Value.vInt 1)]) ∧
    navigate (deletePaths (Value.vMap [("s", Value.vMap [("p", Value.vInt 1), ("q", Value.vInt 2)])]) ["s.p"])
      (splitDot "s.p") = none ∧
    navigate (deletePaths (Value.vMap [("s", Value.vMap [("p", Value.vInt 1), ("q", Value.vInt 2)])]) ["s.p"])
      ["s", "q"] = some (Value.vInt 2) :=
  ⟨(delete_noop_or_removes (Value.vMap [("x", Value.vInt 1)]) "a.b.c").1 rfl,
   (delete_noop_or_removes (Value.vMap [("s", Value.vMap [("p", Value.vInt 1), ("q", Value.vInt 2)])]) "s.p").2.1
      (Value.vInt 1) rfl,
   by
    rw [(delete_noop_or_removes (Value.vMap [("s", Value.vMap [("p", Value.vInt 1), ("q", Value.vInt 2)])]) "s.p").2.2
      ["s", "q"] (by rw [show splitDot "s.p" = ["s", "p"] from rfl]; decide)
      (by rw [show splitDot "s.p" = ["s", "p"] from rfl]; decide)]
    rfl⟩

/-- C1 counterexample: an unknown strategy raises
`ValueError("Unknown merge strategy: bogus")`, which is not the
`ConfigError("unknown merge strategy")` the claim announces (the code
base defines no `ConfigError` at all). -/
theorem merge_unknown_strategy_counterexample :
    handleMerge (Value.vMap []) [] "bogus"
      = Except.error ("ValueError", "Unknown merge strategy: bogus") ∧
    ("ValueError", "Unknown merge strategy: bogus") ≠ ("ConfigError", "unknown merge strategy") :=
  ⟨rfl, by decide⟩

/-- C1 (amended): for every document, every patch and every strategy
string other than `"deep"`, `"shallow"` and `"override"`, `merge` fails
with `ValueError("Unknown merge strategy: <strategy>")` and leaves the
in-memory document unchanged. -/
theorem merge_unknown_strategy (doc : Value) (patch : List (String × Value)) (s : String)
    (h1 : s ≠ "deep") (h2 : s ≠ "shallow") (h3 : s ≠ "override") :
    handleMerge doc patch s = Except.error ("ValueError", "Unknown merge strategy: " ++ s) ∧
    mergeDocAfter doc patch s = doc := by
  have e : handleMerge doc patch s
      = Except.error ("ValueError", "Unknown merge strategy: " ++ s) := by
    unfold handleMerge
    rw [if_neg h1, if_neg h2, if_neg h3]
  refine ⟨e, ?_⟩
  unfold mergeDocAfter
  rw [e]

/-- Witness for `merge_unknown_strategy` at the strategy `"bogus"`. -/
theorem merge_unknown_strategy_witness :
    handleMerge (Value.vMap [("a", Value.vInt 1)]) [("b", Value.vInt 2)] "bogus"
      = Except.error ("ValueError", "Unknown merge strategy: bogus") ∧
    mergeDocAfter (Value.vMap [("a", Value.vInt 1)]) [("b", Value.vInt 2)] "bogus"
      = Value.vMap [("a", Value.vInt 1)] :=
  merge_unknown_strategy (Value.vMap [("a", Value.vInt 1)]) [("b", Value.vInt 2)] "bogus"
    (by decide) (by decide) (by decide)

/-- C6 counterexample: the explicit path `""` is falsy in Python, so
`save("")` writes directly to the *original* target rather than to the
given path. -/
theorem save_empty_path_counterexample :
    save "orig.toml" "content" (some "") none = SaveEffect.wrote "orig.toml" "content" ∧
    SaveEffect.wrote "orig.toml" "content" ≠ SaveEffect.wrote "" "content" :=
  ⟨rfl, by decide⟩

/-- C6 (amended): with `stage` unspecified, `save` resolves the staging
flag to `path is None`: `save()` stages the serialized content under
the Handle's original target and performs no direct write, while
`save(path)` with an explicit *non-empty* path writes the serialized
content directly to that path (creating parent directories for local
paths) and stages nothing; the falsy explicit path `""` instead writes
directly to the original target. -/
theorem save_stage_default (orig content : String) :
    save orig content none none = SaveEffect.staged orig content ∧
    (∀ p : String, p ≠ "" → save orig content (some p) none = SaveEffect.wrote p content) ∧
    save orig content (some "") none = SaveEffect.wrote orig content := by
  refine ⟨rfl, fun p hp => ?_, rfl⟩
  simp [save, hp]

/-- Witness for `save_stage_default` at a concrete non-empty explicit
path. -/
theorem save_stage_default_witness :
    save "a.toml" "x" (some "b.toml") none = SaveEffect.wrote "b.toml" "x" :=
  (save_stage_default "a.toml" "x").2.1 "b.toml" (by decide)

/-- C2 counterexample: stage a changed file `"a.txt"` together with a
path `"b.txt"` that did not exist on disk (sentinel `None`) staged with
empty content.  The code's decision `original != modified` treats the
sentinel as different from `""`, so `"b.txt"` contributes an (empty)
block and the join gains a trailing separator; under the claim's
decision it contributes nothing. -/
theorem get_diff_summary_counterexample :
    get_diff_summary ⟨[("a.txt", "new"), ("b.txt", "")],
        [("a.txt", some "old"), ("b.txt", none)]⟩
      ≠ claimed_diff_summary ⟨[("a.txt", "new"), ("b.txt", "")],
        [("a.txt", some "old"), ("b.txt", none)]⟩ := by
  decide

theorem filterMap_if_eq_filter_map {α β : Type} (P : α → Prop) [DecidablePred P]
    (g : α → β) (l : List α) :
    l.filterMap (fun x => if P x then some (g x) else none)
      = (l.filter (fun x => decide (P x))).map g := by
  induction l with
  | nil => rfl
  | cons x xs ih =>
    by_cases hx : P x <;> simp [List.filterMap_cons, List.filter_cons, hx, ih]

/-- C2 (amended): `get_diff_summary` produces one diff block, labeled
with the path, for exactly those staged paths whose latest staged
content differs from the recorded original entry, where the
missing-file sentinel is distinct from every string (the sentinel is
coerced to the empty string only inside the generated diff text, so a
path that did not exist on disk staged with empty content passes the
decision and contributes an empty block to the newline join); paths
whose staged content equals their recorded original string are
omitted. -/
theorem get_diff_summary_spec (st : PlanState) :
    get_diff_summary st = String.intercalate "\n"
      ((st.staged.filter (fun pc => decide (getOrig st.original pc.1 ≠ some pc.2))).map
        (fun pc => udiff ((getOrig st.original pc.1).getD "") pc.2 pc.1)) ∧
    (∀ l : String, udiff "" "" l = "") := by
  constructor
  · exact congrArg (String.intercalate "\n")
      (filterMap_if_eq_filter_map (fun pc => getOrig st.original pc.1 ≠ some pc.2)
        (fun pc => udiff ((getOrig st.original pc.1).getD "") pc.2 pc.1) st.staged)
  · intro l; rfl

theorem dlookup_stage_staged (fs : String → Option String) (st : PlanState)
    (p c : String) (q : String) :
    dlookup (stage fs st p c).staged q = if p = q then some c else dlookup st.staged q :=
  dlookup_dput st.staged p c q

theorem dlookup_stage_original (fs : String → Option String) (st : PlanState)
    (p c : String) (q : String) :
    dlookup (stage fs st p c).original q =
      (dlookup st.original q).orElse (fun _ =>
        if p = q then some (fs p) else none) := by
  show dlookup (if dhas st.original p then st.original else st.original ++ [(p, fs p)]) q = _
  by_cases hh : dhas st.original p
  · rw [if_pos hh]
    cases hq : dlookup st.original q with
    | some v => simp [Option.orElse]
    | none =>
      by_cases hp : p = q
      · subst hp
        rw [dhas, hq] at hh
        exact absurd hh (by simp)
      · simp [Option.orElse, hp]
  · rw [if_neg hh, dlookup_append]
    cases hq : dlookup st.original q with
    | some v => simp [Option.orElse]
    | none =>
      by_cases hp : p = q <;> simp [Option.orElse, hp]

theorem foldStages_staged : ∀ (ops : List StageOp) (st : PlanState) (q : String),
    dlookup (foldStages ops st).staged q
      = (lastStaged ops q).orElse (fun _ => dlookup st.staged q) := by
  intro ops
  induction ops with
  | nil => intro st q; simp [foldStages, lastStaged, Option.orElse]
  | cons op rest ih =>
    intro st q
    have step : foldStages (op :: rest) st
        = foldStages rest (stage op.fs st op.path op.content) := rfl
    rw [step, ih, dlookup_stage_staged]
    cases hr : lastStaged rest q with
    | some c => simp [lastStaged, hr, Option.orElse]
    | none =>
      by_cases hp : op.path = q <;> simp [lastStaged, hr, hp, Option.orElse]

theorem foldStages_original : ∀ (ops : List StageOp) (st : PlanState) (q : String),
    dlookup (foldStages ops st).original q
      = (dlookup st.original q).orElse (fun _ => firstOrig ops q) := by
  intro ops
  induction ops with
  | nil => intro st q; cases h : dlookup st.original q <;> simp [foldStages, firstOrig, h, Option.orElse]
  | cons op rest ih =>
    intro st q
    have step : foldStages (op :: rest) st
        = foldStages rest (stage op.fs st op.path op.content) := rfl
    rw [step, ih, dlookup_stage_original]
    cases hq : dlookup st.original q with
    | some v => simp [Option.orElse]
    | none =>
      by_cases hp : op.path = q
      · subst hp
        simp [firstOrig, Option.orElse]
      · simp [firstOrig, hp, Option.orElse]

theorem lastStaged_isSome_eq (ops : List StageOp) (q : String) :
    (lastStaged ops q).isSome = (firstOrig ops q).isSome := by
  induction ops with
  | nil => rfl
  | cons op rest ih =>
    cases hr : lastStaged rest q with
    | some c =>
      rw [hr] at ih
      by_cases hp : op.path = q <;>
        simp [lastStaged, firstOrig, hr, hp, ← ih]
    | none =>
      rw [hr] at ih
      by_cases hp : op.path = q <;>
        simp [lastStaged, firstOrig, hr, hp, ← ih]

/-- C7: over any sequence of `stage` calls forming one transaction, the
staged content of a path is the content of the most recent call for it
(last write wins), the original entry of a path is the storage content
observed by the *first* call for it — later calls never overwrite it —
and every staged path has an original entry. -/
theorem stage_invariants (ops : List StageOp) (q : String) :
    dlookup (runStages ops).staged q = lastStaged ops q ∧
    dlookup (runStages ops).original q = firstOrig ops q ∧
    ((lastStaged ops q).isSome → (firstOrig ops q).isSome) := by
  refine ⟨?_, ?_, ?_⟩
  · rw [runStages, foldStages_staged]
    cases h : lastStaged ops q <;> simp [emptyPlan, Option.orElse]
  · rw [runStages, foldStages_original]
    simp [emptyPlan, Option.orElse]
  · intro h
    rw [← lastStaged_isSome_eq]
    exact h

/-- Witness for `stage_invariants`: stage `"a"` twice; the second call
observes different storage, yet the original entry keeps the first
observation, while the staged content is the second call's. -/
theorem stage_invariants_witness :
    dlookup (runStages [⟨fun _ => some "disk", "a", "v1"⟩, ⟨fun _ => none, "a", "v2"⟩]).staged "a"
      = some "v2" ∧
    dlookup (runStages [⟨fun _ => some "disk", "a", "v1"⟩, ⟨fun _ => none, "a", "v2"⟩]).original "a"
      = some (some "disk") ∧
    (firstOrig [⟨fun _ => some "disk", "a", "v1"⟩, ⟨fun _ => none, "a", "v2"⟩] "a").isSome := by
  refine ⟨?_, ?_, ?_⟩
  · rw [(stage_invariants [⟨fun _ => some "disk", "a", "v1"⟩, ⟨fun _ => none, "a", "v2"⟩] "a").1]
    rfl
  · rw [(stage_invariants [⟨fun _ => some "disk", "a", "v1"⟩, ⟨fun _ => none, "a", "v2"⟩] "a").2.1]
    rfl
  · exact (stage_invariants [⟨fun _ => some "disk", "a", "v1"⟩, ⟨fun _ => none, "a", "v2"⟩] "a").2.2
      rfl

theorem runStageOps_fs : ∀ (ops : List (String × String)) (w : World),
    (runStageOps w ops).fs = w.fs := by
  intro ops
  induction ops with
  | nil => intro w; rfl
  | cons pc rest ih =>
    intro w
    show (runStageOps (stageW w pc.1 pc.2) rest).fs = w.fs
    rw [ih]
    rfl

/-- C8: staging and rolling back never touch real storage — after any
sequence of `stage` calls followed by `rollback` (or `clear`), every
real file holds exactly the content it had before the first call, both
the staged map and the original map are empty, and `preview()` returns
the empty mapping. -/
theorem stage_rollback_frame (w : World) (ops : List (String × String)) :
    (runStageOps w ops).fs = w.fs ∧
    (rollbackW (runStageOps w ops)).fs = w.fs ∧
    (rollbackW (runStageOps w ops)).plan.staged = [] ∧
    (rollbackW (runStageOps w ops)).plan.original = [] ∧
    preview (rollbackW (runStageOps w ops)).plan = [] ∧
    (clearW (runStageOps w ops)).plan = emptyPlan :=
  ⟨runStageOps_fs ops w, runStageOps_fs ops w, rfl, rfl, rfl, rfl⟩

/-- Dict-shapedness of heap nodes is preserved by a merge: the
algorithm only ever stores dict nodes over existing dict nodes. -/
theorem mergeH_preserves : ∀ fuel : Nat,
    (∀ (h : Heap) (x y : Nat) (h' : Heap) (r : Nat), mergeH fuel h x y = some (h', r) →
      ∀ (a : Nat) (m : List (String × Nat)), dlookup h a = some (HNode.hDict m) →
      ∃ m', dlookup h' a = some (HNode.hDict m')) ∧
    (∀ (h : Heap) (base : Nat) (l : List (String × Nat)) (h' : Heap),
      mergeEntriesH fuel h base l = some h' →
      ∀ (a : Nat) (m : List (String × Nat)), dlookup h a = some (HNode.hDict m) →
      ∃ m', dlookup h' a = some (HNode.hDict m')) := by
  intro fuel
  induction fuel with
  | zero =>
    constructor
    · intro h x y h' r he; exact absurd he (by simp [mergeH])
    · intro h base l h' he; exact absurd he (by simp [mergeEntriesH])
  | succ fuel ih =>
    obtain ⟨ihM, ihE⟩ := ih
    constructor
    · intro h x y h' r he a m hm
      simp only [mergeH] at he
      split at he
      · split at he
        · rename_i nm hent h1 hsome
          obtain ⟨rfl, rfl⟩ : h1 = h' ∧ x = r := by
            constructor <;> [exact congrArg Prod.fst (Option.some.inj he);
              exact congrArg Prod.snd (Option.some.inj he)]
          exact ihE _ _ _ _ hsome a m hm
        · exact absurd he (by simp)
      · rename_i hnotdict _ _
        obtain ⟨rfl, rfl⟩ : h = h' ∧ y = r := by
          constructor <;> [exact congrArg Prod.fst (Option.some.inj he);
            exact congrArg Prod.snd (Option.some.inj he)]
        exact ⟨m, hm⟩
      · exact absurd he (by simp)
    · intro h base l h' he a m hm
      cases l with
      | nil =>
        simp only [mergeEntriesH] at he
        obtain rfl : h = h' := Option.some.inj he
        exact ⟨m, hm⟩
      | cons p rest =>
        obtain ⟨k, va⟩ := p
        simp only [mergeEntriesH] at he
        split at he
        · rename_i bm hbase
          split at he
          · rename_i hmiss
            by_cases hab : base = a
            · subst hab
              apply ihE _ _ _ _ he base (bm ++ [(k, va)])
              rw [dlookup_dset, if_pos rfl, hbase]
              rfl
            · apply ihE _ _ _ _ he a m
              rw [dlookup_dset, if_neg hab]
              exact hm
          · rename_i ba hba
            split at he
            · rename_i h1 r1 hm1
              split at he
              · rename_i bm' hbm'
                obtain ⟨m2, hm2⟩ := ihM _ _ _ _ _ hm1 a m hm
                by_cases hab : base = a
                · subst hab
                  apply ihE _ _ _ _ he base (dput bm' k r1)
                  rw [dlookup_dset, if_pos rfl, hm2]
                  rfl
                · apply ihE _ _ _ _ he a m2
                  rw [dlookup_dset, if_neg hab]
                  exact hm2
              · exact absurd he (by simp)
            · exact absurd he (by simp)
        · exact absurd he (by simp)

/-- When both arguments hold dict nodes, a successful `mergeH` hands
back the base address itself (the dict strategy mutates and returns
`base`). -/
theorem mergeH_returns_base (fuel : Nat) (h : Heap) (base nxt : Nat) (h' : Heap) (r : Nat)
    (he : mergeH fuel h base nxt = some (h', r))
    (hb : ∃ bm, dlookup h base = some (HNode.hDict bm))
    (hn : ∃ nm, dlookup h nxt = some (HNode.hDict nm)) : r = base := by
  obtain ⟨bm, hbm⟩ := hb
  obtain ⟨nm, hnm⟩ := hn
  cases fuel with
  | zero => exact absurd he (by simp [mergeH])
  | succ fuel =>
    simp only [mergeH, hbm, hnm] at he
    split at he
    · exact (congrArg Prod.snd (Option.some.inj he)).symm
    · exact absurd he (by simp)

/-- C10 (amended): a successful `merge_deep` over documents that are
all mappings returns the *first document itself* — the accumulator
address never changes, every intermediate merge mutating it in place. -/
theorem merge_deep_heap_returns_first :
    ∀ (rest : List Nat) (fuel : Nat) (h : Heap) (d : Nat) (h' : Heap) (r : Nat),
      mergeDocsH fuel h d rest = some (h', r) →
      (∃ dm, dlookup h d = some (HNode.hDict dm)) →
      (∀ b ∈ rest, ∃ bm, dlookup h b = some (HNode.hDict bm)) →
      r = d := by
  intro rest
  induction rest with
  | nil =>
    intro fuel h d h' r he _ _
    exact (congrArg Prod.snd (Option.some.inj he)).symm
  | cons b bs ih =>
    intro fuel h d h' r he hd hb
    simp only [mergeDocsH] at he
    split at he
    · rename_i h1 r1 hm1
      have hbd : ∃ bm, dlookup h b = some (HNode.hDict bm) := hb b (List.mem_cons_self _ _)
      obtain rfl : r1 = d := mergeH_returns_base fuel h d b h1 r1 hm1 hd hbd
      apply ih fuel h1 r1 h' r he
      · obtain ⟨dm, hdm⟩ := hd
        exact (mergeH_preserves fuel).1 _ _ _ _ _ hm1 r1 dm hdm
      · intro b' hb'
        obtain ⟨bm', hbm'⟩ := hb b' (List.mem_cons_of_mem _ hb')
        exact (mergeH_preserves fuel).1 _ _ _ _ _ hm1 b' bm' hbm'
    · exact absurd he (by simp)

/-- Witness for `merge_deep_heap_returns_first`: merging
`{"a": 1}` (address 0) with `{"b": 2}` (address 1) succeeds and returns
address 0, the first document, now holding the merged mapping. -/
theorem merge_deep_heap_returns_first_witness :
    mergeDocsH 5
        [(0, HNode.hDict [("a", 2)]), (1, HNode.hDict [("b", 3)]),
         (2, HNode.hScalar 1), (3, HNode.hScalar 2)] 0 [1]
      = some ([(0, HNode.hDict [("a", 2), ("b", 3)]), (1, HNode.hDict [("b", 3)]),
         (2, HNode.hScalar 1), (3, HNode.hScalar 2)], 0) ∧
    (0 : Nat) = 0 :=
  ⟨rfl,
   merge_deep_heap_returns_first [1] 5
     [(0, HNode.hDict [("a", 2)]), (1, HNode.hDict [("b", 3)]),
      (2, HNode.hScalar 1), (3, HNode.hScalar 2)] 0
     [(0, HNode.hDict [("a", 2), ("b", 3)]), (1, HNode.hDict [("b", 3)]),
      (2, HNode.hScalar 1), (3, HNode.hScalar 2)] 0
     rfl ⟨[("a", 2)], rfl⟩
     (by
      intro b hb
      rw [List.mem_singleton] at hb
      subst hb
      exact ⟨[("b", 3)], rfl⟩)⟩

/-- C10 counterexample: merging three documents
`a = {}` (address 0), `b = {"x": {"p": 1}}` (address 1, inner mapping
at address 2) and `c = {"x": {"q": 2}}` (address 3) mutates `b`: the
first merge aliases `b`'s inner mapping into the accumulator, and the
second merge then writes `c`'s key `"q"` into that shared node, so the
remaining input document `b` is itself changed to
`{"x": {"p": 1, "q": 2}}`. -/
theorem merge_deep_heap_mutates_patch_counterexample :
    mergeDocsH 10
        [(0, HNode.hDict []), (1, HNode.hDict [("x", 2)]), (2, HNode.hDict [("p", 10)]),
         (10, HNode.hScalar 1), (3, HNode.hDict [("x", 4)]), (4, HNode.hDict [("q", 11)]),
         (11, HNode.hScalar 2)] 0 [1, 3]
      = some ([(0, HNode.hDict [("x", 2)]), (1, HNode.hDict [("x", 2)]),
         (2, HNode.hDict [("p", 10), ("q", 11)]), (10, HNode.hScalar 1),
         (3, HNode.hDict [("x", 4)]), (4, HNode.hDict [("q", 11)]),
         (11, HNode.hScalar 2)], 0) ∧
    dlookup [(0, HNode.hDict []), (1, HNode.hDict [("x", 2)]), (2, HNode.hDict [("p", 10)]),
         (10, HNode.hScalar 1), (3, HNode.hDict [("x", 4)]), (4, HNode.hDict [("q", 11)]),
         (11, HNode.hScalar 2)] 2
      = some (HNode.hDict [("p", 10)]) ∧
    dlookup [(0, HNode.hDict [("x", 2)]), (1, HNode.hDict [("x", 2)]),
         (2, HNode.hDict [("p", 10), ("q", 11)]), (10, HNode.hScalar 1),
         (3, HNode.hDict [("x", 4)]), (4, HNode.hDict [("q", 11)]),
         (11, HNode.hScalar 2)] 2
      = some (HNode.hDict [("p", 10), ("q", 11)]) ∧
    HNode.hDict [("p", 10)] ≠ HNode.hDict [("p", 10), ("q", 11)] :=
  ⟨rfl, rfl, rfl, by decide⟩

end Conserve

